import Mathlib

/-!
Verification of the connectivity-matrix aggregation pipeline of
`scripts/scil_compute_pca.py`.

Matrices are embedded as lists of rows of integers (`Mat`); the metric
dictionary (a Python `dict` of metric name to per-subject matrix list,
insertion-ordered) is embedded as an association list (`Dict`).
-/

namespace PcaPipeline

abbrev Mat := List (List Int)

abbrev Dict := List (String × List Mat)

/-- Cell access with numpy-style defaults: out-of-range reads give `0`. -/
def getCell (m : Mat) (r c : Nat) : Int := (m.getD r []).getD c 0

/-- Code `met[i][met[i] != 0] = 1`: every non-zero entry becomes `1`. -/
def binarizeMat (m : Mat) : Mat :=
  m.map (fun row => row.map (fun v => if v ≠ 0 then 1 else 0))

/-- Embedding of `np.add` on same-shape 2-D arrays, elementwise. -/
def matAdd (a b : Mat) : Mat := List.zipWith (List.zipWith (· + ·)) a b

/-- Embedding of `np.multiply` on same-shape 2-D arrays, elementwise. -/
def matMulElem (a b : Mat) : Mat := List.zipWith (List.zipWith (· * ·)) a b

/-- First thresholding pass of `extracting_common_cnx`:
`mask_f[mask_f != len(met)] = 0`. -/
def threshStep1 (n v : Int) : Int := if v ≠ n then 0 else v

/-- Second thresholding pass of `extracting_common_cnx`:
`mask_f[mask_f == len(met)] = 1`. -/
def threshStep2 (n v : Int) : Int := if v = n then 1 else v

/-- Lookup `d[keys[ind]]`: the per-subject matrix list of the `ind`-th metric in
insertion order. -/
def metricAt (d : Dict) (ind : Nat) : List Mat := (d.map Prod.snd).getD ind []

/-- Function `extracting_common_cnx(d, ind)`: binarize every subject's matrix of the
`ind`-th metric, add them all (the code keeps the running sums in a list and
takes the last one), then threshold: cells equal to the subject count become
`1`, all others `0`. -/
def extracting_common_cnx (d : Dict) (ind : Nat) : Mat :=
  let met := metricAt d ind
  let metb := met.map binarizeMat
  let summed : Mat :=
    match metb with
    | [] => []
    | h :: t => t.foldl matAdd h
  let n : Int := met.length
  summed.map (fun row => row.map (fun v => threshStep2 n (threshStep1 n v)))

/-- Variant of `extracting_common_cnx` with the post-call dictionary made explicit: the
function works on `np.copy(d[keys[ind]])` (a deep copy of the stacked
matrices) and assigns only to that copy and to arrays freshly produced by
`np.add`, so the dictionary after the call is the dictionary it was given. -/
def extracting_common_cnx_st (d : Dict) (ind : Nat) : Mat × Dict :=
  (extracting_common_cnx d ind, d)

/-- Function `apply_binary_mask(d, mask)`: elementwise-multiply every subject's matrix
of every metric by the mask (the code mutates `d` in place and returns it;
the returned dictionary is the post-state). -/
def apply_binary_mask (d : Dict) (mask : Mat) : Dict :=
  d.map (fun p => (p.1, p.2.map (fun m => matMulElem m mask)))

/-- Function `restore_zero_values(orig, new)`: binarize a copy of `orig` into a 0/1
mask and elementwise-multiply `new` by it. -/
def restore_zero_values (orig new : Mat) : Mat :=
  matMulElem new (binarizeMat orig)

/-- Embedding of `np.rollaxis(arr, axis=1, start=3)` on the `(S, R, C)` stack
followed by selecting one subject: rolling axis 1 to the end turns each
subject's `(R, C)` matrix into its `(C, R)` transpose. -/
def transposeMat (m : Mat) : Mat :=
  (List.range (m.headD []).length).map (fun c => m.map (fun row => row.getD c 0))

/-- One column of the PCA input: the `(S, C, R)` rolled stack of one metric,
flattened in row-major order (`reshape((np.prod(matrix_shape) * n_group, 1))`). -/
def flattenMetric (ms : List Mat) : List Int :=
  (ms.map (fun m => (transposeMat m).flatten)).flatten

/-- Function `creating_pca_input(d)`: one flattened column per metric, columns in
metric insertion order (`np.hstack`).  The table is represented
column-major: element `j` is the column of the `j`-th metric. -/
def creating_pca_input (d : Dict) : List (List Int) :=
  d.map (fun p => flattenMetric p.2)

inductive PcaError where
  | missingMatrix
  | shapeMismatch
  | inconsistentMask
deriving DecidableEq, Repr

/-- Shape `m.shape` of a rectangular 2-D array. -/
def shapeOf (m : Mat) : Nat × Nat := (m.length, (m.headD []).length)

/-- Embedding of `np.sum(m)`: the sum of all entries. -/
def matSum (m : Mat) : Int := m.flatten.sum

/-- The number of 1-valued cells of a mask. -/
def countOnes (m : Mat) : Nat := (m.flatten.filter (fun v => v = 1)).length

/-- The `args.common == 'true'` branch of `main` (lines 185-198): extract the
masks of the first two metrics, fail if the first mask's shape differs from
the individual matrix shape, fail with an inconsistent-mask error if the two
masks' `np.sum` differ, otherwise apply the FIRST mask to every matrix. -/
def commonStep (d : Dict) (mat_shape : Nat × Nat) : Except PcaError Dict :=
  let m1 := extracting_common_cnx d 0
  let m2 := extracting_common_cnx d 1
  if shapeOf m1 ≠ mat_shape then .error .shapeMismatch
  else if matSum m1 ≠ matSum m2 then .error .inconsistentMask
  else .ok (apply_binary_mask d m1)

/-- The tail of `main` with the decomposition replaced by the identity
(lines 266-270): `out = x`, `out = restore_zero_values(x, out)`, then
`out.swapaxes(0, 1).reshape(len(metrics), len(subjects), R, C)`.  With the
column-major table, `swapaxes(0, 1)` is the identity on the representation
and the reshape reads column `j` at flat index `s*(R*C) + r*C + c`. -/
def identRoundTrip (d : Dict) (S R C : Nat) : List (List Mat) :=
  (List.range d.length).map (fun j =>
    (List.range S).map (fun s =>
      (List.range R).map (fun r =>
        (List.range C).map (fun c =>
          ((restore_zero_values (creating_pca_input d)
              (creating_pca_input d)).getD j []).getD
            (s * (R * C) + r * C + c) 0))))

/-- Count `nb_pc = eigenvalues[eigenvalues >= 1]` then `len(nb_pc)`: the
count of eigenvalues greater than or equal to 1. -/
def nbRetained (evs : List ℚ) : Nat := (evs.filter (fun e => decide (1 ≤ e))).length

/-- Loop `for i in range(0, len(nb_pc))`: the indices of the components the saving
loop writes (one matrix per subject for each such index). -/
def writtenPCs (evs : List ℚ) : List Nat := List.range (nbRetained evs)

/-- Modelled from the spec: `load_matrix_in_any_format` (scilpy.io.utils, not
under src/) retrieves the stored matrix of one (subject, metric) pair and
fails when it is absent; the spec names this failure `MissingMatrixError`.
The store is an opaque map from (subject, metric) to an optional matrix. -/
def loadRow (subjects : List String) (m : String)
    (store : String → String → Option Mat) : Except PcaError (List Mat) :=
  match subjects with
  | [] => .ok []
  | a :: rest =>
    match store a m with
    | none => .error .missingMatrix
    | some mat => (loadRow rest m store).map (fun ms => mat :: ms)

/-- The dict comprehension of `main` (line 179): for each metric in order,
load the matrix of every subject in order.  No shape validation happens
here — the comprehension only collects what the store returns. -/
def load (subjects metrics : List String)
    (store : String → String → Option Mat) : Except PcaError Dict :=
  match metrics with
  | [] => .ok []
  | m :: rest =>
    match loadRow subjects m store with
    | .error e => .error e
    | .ok ms => (load subjects rest store).map (fun d => (m, ms) :: d)

/-- The concrete scenario of the spec: 2 subjects, 2 metrics, 2x2 matrices. -/
def exDict : Dict :=
  [("fa", [[[1, 0], [2, 3]], [[5, 0], [6, 0]]]),
   ("md", [[[1, 0], [0, 4]], [[1, 0], [7, 0]]])]

/-- One subject whose two metrics have structurally different non-zero
patterns with the same retained-cell count. -/
def exDictEqCount : Dict := [("fa", [[[1, 0], [0, 0]]]), ("md", [[[0, 1], [0, 0]]])]

/-- One metric, one subject, one non-symmetric square matrix. -/
def exDictAsym : Dict := [("fa", [[[1, 2], [3, 4]]])]

/-- One metric whose second subject has an all-zero matrix. -/
def exDictZeroSubject : Dict := [("fa", [[[1, 1], [1, 1]], [[0, 0], [0, 0]]])]

/-- A store whose two metrics hold matrices of different shapes. -/
def exStoreMismatch : String → String → Option Mat :=
  fun _ m => if m = "fa" then some [[1]] else some [[1, 2], [3, 4]]

/-- A store with every pair present. -/
def exStoreFull : String → String → Option Mat := fun _ _ => some [[1, 0], [0, 1]]

/-- Rectangularity: `R` rows, every row of length `C` (stated over `getD`
so it is decidable at concrete inputs). -/
def IsShaped (R C : Nat) (m : Mat) : Prop :=
  m.length = R ∧ ∀ r, r < R → (m.getD r []).length = C

instance (R C : Nat) (m : Mat) : Decidable (IsShaped R C m) := by
  unfold IsShaped; infer_instance

instance {ε α : Type} [DecidableEq ε] [DecidableEq α] : DecidableEq (Except ε α) := by
  intro a b
  cases a <;> cases b
  case error.error e f =>
    exact if h : e = f then .isTrue (by rw [h]) else .isFalse (by intro hc; cases hc; exact h rfl)
  case error.ok e v => exact .isFalse (by intro hc; cases hc)
  case ok.error v e => exact .isFalse (by intro hc; cases hc)
  case ok.ok v w =>
    exact if h : v = w then .isTrue (by rw [h]) else .isFalse (by intro hc; cases hc; exact h rfl)

/-! ### Basic list-access lemmas -/

theorem getD_map_congr {α β : Type} (f : α → β) (d' : α) :
    ∀ (l : List α) (i : Nat), (l.map f).getD i (f d') = f (l.getD i d')
  | [], i => by simp
  | a :: t, 0 => by simp
  | a :: t, i + 1 => by
    rw [List.map_cons, List.getD_cons_succ, List.getD_cons_succ]
    exact getD_map_congr f d' t i

theorem getD_map_lt {α β : Type} (f : α → β) (d : β) (d' : α) :
    ∀ (l : List α) (i : Nat), i < l.length → (l.map f).getD i d = f (l.getD i d')
  | a :: t, 0, _ => by simp
  | a :: t, i + 1, h => by
    simpa [List.getD_cons_succ] using getD_map_lt f d d' t i (by simpa using h)

theorem getD_zipWith_lt {α : Type} (f : α → α → α) (d : α) :
    ∀ (a b : List α) (i : Nat), i < a.length → i < b.length →
      (List.zipWith f a b).getD i d = f (a.getD i d) (b.getD i d)
  | x :: xs, y :: ys, 0, _, _ => by simp
  | x :: xs, y :: ys, i + 1, ha, hb => by
    simpa [List.getD_cons_succ] using
      getD_zipWith_lt f d xs ys i (by simpa using ha) (by simpa using hb)

theorem flatten_getD {α : Type} (d : α) (L : Nat) :
    ∀ (l : List (List α)) (i k : Nat), (∀ x ∈ l, x.length = L) →
      i < l.length → k < L →
      l.flatten.getD (i * L + k) d = (l.getD i []).getD k d
  | a :: t, 0, k, hL, _, hk => by
    have ha : a.length = L := hL a (by simp)
    simp only [List.flatten_cons, Nat.zero_mul, Nat.zero_add, List.getD_cons_zero]
    exact List.getD_append a t.flatten d k (by omega)
  | a :: t, i + 1, k, hL, hi, hk => by
    have ha : a.length = L := hL a (by simp)
    have harith : (i + 1) * L + k = a.length + (i * L + k) := by
      rw [ha, Nat.succ_mul]; omega
    rw [List.flatten_cons, harith, List.getD_cons_succ]
    have := List.getD_append_right a t.flatten d (a.length + (i * L + k)) (by omega)
    rw [this, Nat.add_sub_cancel_left]
    exact flatten_getD d L t i k (fun x hx => hL x (by simp [hx])) (by simpa using hi) hk

/-! ### Shape preservation -/

theorem length_matAdd_of_shaped {R C : Nat} {a b : Mat}
    (ha : IsShaped R C a) (hb : IsShaped R C b) : IsShaped R C (matAdd a b) := by
  obtain ⟨hal, har⟩ := ha
  obtain ⟨hbl, hbr⟩ := hb
  constructor
  · rw [matAdd, List.length_zipWith, hal, hbl]; exact Nat.min_self R
  · intro r hr
    rw [matAdd, getD_zipWith_lt _ _ a b r (by omega) (by omega),
      List.length_zipWith, har r hr, hbr r hr]
    exact Nat.min_self C

theorem binarize_shaped {R C : Nat} {m : Mat} (h : IsShaped R C m) :
    IsShaped R C (binarizeMat m) := by
  obtain ⟨hl, hr⟩ := h
  constructor
  · rw [binarizeMat, List.length_map]; exact hl
  · intro r hrR
    have h1 : (binarizeMat m).getD r [] =
        (m.getD r []).map (fun v : Int => if v ≠ 0 then 1 else 0) :=
      getD_map_lt _ _ [] m r (by omega)
    rw [h1, List.length_map]
    exact hr r hrR

theorem foldl_matAdd_shaped {R C : Nat} :
    ∀ (t : List Mat) (h : Mat), IsShaped R C h → (∀ m ∈ t, IsShaped R C m) →
      IsShaped R C (t.foldl matAdd h)
  | [], h, hh, _ => hh
  | a :: t, h, hh, ht => by
    rw [List.foldl_cons]
    exact foldl_matAdd_shaped t (matAdd h a)
      (length_matAdd_of_shaped hh (ht a (by simp)))
      (fun m hm => ht m (by simp [hm]))

/-! ### Cell values -/

theorem getCell_binarize {R C : Nat} (m : Mat) (r c : Nat) (h : IsShaped R C m)
    (hr : r < R) (hc : c < C) :
    getCell (binarizeMat m) r c = if getCell m r c ≠ 0 then 1 else 0 := by
  unfold getCell binarizeMat
  rw [getD_map_lt _ _ [] m r (by rw [h.1]; exact hr)]
  exact getD_map_lt _ _ 0 (m.getD r []) c (by rw [h.2 r hr]; exact hc)

theorem getCell_matAdd {R C : Nat} {a b : Mat} (r c : Nat)
    (ha : IsShaped R C a) (hb : IsShaped R C b) (hr : r < R) (hc : c < C) :
    getCell (matAdd a b) r c = getCell a r c + getCell b r c := by
  unfold getCell matAdd
  rw [getD_zipWith_lt _ _ a b r (by rw [ha.1]; exact hr) (by rw [hb.1]; exact hr)]
  exact getD_zipWith_lt _ _ _ _ c
    (by rw [ha.2 r hr]; exact hc) (by rw [hb.2 r hr]; exact hc)

theorem getCell_foldl_matAdd {R C : Nat} (r c : Nat) (hr : r < R) (hc : c < C) :
    ∀ (t : List Mat) (h : Mat), IsShaped R C h → (∀ m ∈ t, IsShaped R C m) →
      getCell (t.foldl matAdd h) r c =
        getCell h r c + (t.map (fun m => getCell m r c)).sum
  | [], h, _, _ => by simp
  | a :: t, h, hh, ht => by
    have hsa : IsShaped R C a := ht a (by simp)
    rw [List.foldl_cons,
      getCell_foldl_matAdd r c hr hc t (matAdd h a)
        (length_matAdd_of_shaped hh hsa) (fun m hm => ht m (by simp [hm])),
      getCell_matAdd r c hh hsa hr hc]
    simp [add_assoc]

/-! ### Sums of 0/1 lists -/

theorem sum_le_length_of_01 :
    ∀ (l : List Int), (∀ v ∈ l, v = 0 ∨ v = 1) → l.sum ≤ (l.length : Int)
  | [], _ => by simp
  | a :: t, h => by
    have ht := sum_le_length_of_01 t (fun v hv => h v (by simp [hv]))
    have ha : a = 0 ∨ a = 1 := h a (by simp)
    simp only [List.sum_cons, List.length_cons]
    push_cast
    rcases ha with h0 | h1 <;> omega

theorem sum_eq_length_iff_all_one :
    ∀ (l : List Int), (∀ v ∈ l, v = 0 ∨ v = 1) →
      (l.sum = (l.length : Int) ↔ ∀ v ∈ l, v = 1)
  | [], _ => by simp
  | a :: t, h => by
    have ht := sum_eq_length_iff_all_one t (fun v hv => h v (by simp [hv]))
    have hle := sum_le_length_of_01 t (fun v hv => h v (by simp [hv]))
    have ha : a = 0 ∨ a = 1 := h a (by simp)
    simp only [List.sum_cons, List.length_cons, List.mem_cons]
    push_cast
    constructor
    · intro hs
      rcases ha with h0 | h1
      · exfalso; omega
      · have : t.sum = (t.length : Int) := by omega
        intro v hv
        rcases hv with hv | hv
        · rw [hv]; exact h1
        · exact ht.1 this v hv
    · intro hall
      have ha1 : a = 1 := hall a (Or.inl rfl)
      have : t.sum = (t.length : Int) := ht.2 (fun v hv => hall v (Or.inr hv))
      omega

/-! ### Shape and cell structure of the extracted mask -/

theorem mapMat_shaped (f : Int → Int) {R C : Nat} {m : Mat} (h : IsShaped R C m) :
    IsShaped R C (m.map (fun row => row.map f)) := by
  constructor
  · rw [List.length_map]; exact h.1
  · intro r hr
    rw [getD_map_lt _ _ [] m r (by rw [h.1]; exact hr), List.length_map]
    exact h.2 r hr

theorem getCell_mapMat (f : Int → Int) {R C : Nat} {m : Mat} (h : IsShaped R C m)
    (r c : Nat) (hr : r < R) (hc : c < C) :
    getCell (m.map (fun row => row.map f)) r c = f (getCell m r c) := by
  unfold getCell
  rw [getD_map_lt _ _ [] m r (by rw [h.1]; exact hr)]
  exact getD_map_lt _ _ 0 (m.getD r []) c (by rw [h.2 r hr]; exact hc)

theorem extract_summed_shaped {R C : Nat} {ms : List Mat} (h : Mat) (t : List Mat)
    (hms : ms = h :: t) (hsh : ∀ m ∈ ms, IsShaped R C m) :
    IsShaped R C ((t.map binarizeMat).foldl matAdd (binarizeMat h)) := by
  subst hms
  refine foldl_matAdd_shaped _ _ (binarize_shaped (hsh h (by simp))) ?_
  intro m hm
  obtain ⟨m0, hm0, rfl⟩ := List.mem_map.1 hm
  exact binarize_shaped (hsh m0 (by simp [hm0]))

/-- The central cell-level characterization of `extracting_common_cnx`: in
bounds, a mask cell is `1` when every subject's matrix of the chosen metric
is non-zero there, and `0` otherwise. -/
theorem extract_cell_eq {R C : Nat} (d : Dict) (ind : Nat)
    (hne : metricAt d ind ≠ []) (hsh : ∀ m ∈ metricAt d ind, IsShaped R C m)
    (r c : Nat) (hr : r < R) (hc : c < C) :
    getCell (extracting_common_cnx d ind) r c =
      if ∀ m ∈ metricAt d ind, getCell m r c ≠ 0 then 1 else 0 := by
  obtain ⟨h, t, hmet⟩ : ∃ h t, metricAt d ind = h :: t := by
    cases hmeteq : metricAt d ind with
    | nil => exact absurd hmeteq hne
    | cons h t => exact ⟨h, t, rfl⟩
  have hsummed : IsShaped R C ((t.map binarizeMat).foldl matAdd (binarizeMat h)) :=
    extract_summed_shaped h t hmet hsh
  have hunfold : extracting_common_cnx d ind =
      ((t.map binarizeMat).foldl matAdd (binarizeMat h)).map
        (fun row => row.map (fun v =>
          threshStep2 ((h :: t).length : Int) (threshStep1 ((h :: t).length : Int) v))) := by
    unfold extracting_common_cnx
    rw [hmet]
    simp only [List.map_cons]
  rw [hunfold,
    getCell_mapMat _ hsummed r c hr hc,
    getCell_foldl_matAdd r c hr hc (t.map binarizeMat) (binarizeMat h)
      (binarize_shaped (hsh h (by rw [hmet]; simp)))
      (fun m hm => by
        obtain ⟨m0, hm0, rfl⟩ := List.mem_map.1 hm
        exact binarize_shaped (hsh m0 (by rw [hmet]; simp [hm0])))]
  have hhd : getCell (binarizeMat h) r c = if getCell h r c ≠ 0 then 1 else 0 :=
    getCell_binarize h r c (hsh h (by rw [hmet]; simp)) hr hc
  have htl : (t.map binarizeMat).map (fun m => getCell m r c) =
      t.map (fun m => if getCell m r c ≠ 0 then 1 else 0) := by
    rw [List.map_map]
    exact List.map_congr_left (fun m0 hm0 =>
      getCell_binarize m0 r c (hsh m0 (by rw [hmet]; simp [hm0])) hr hc)
  rw [hhd, htl, hmet]
  set l := (h :: t).map (fun m => if getCell m r c ≠ 0 then (1 : Int) else 0) with hl
  have hsum : (if getCell h r c ≠ 0 then (1 : Int) else 0) +
      (t.map (fun m => if getCell m r c ≠ 0 then (1 : Int) else 0)).sum = l.sum := by
    rw [hl, List.map_cons, List.sum_cons]
  rw [hsum]
  have hl01 : ∀ v ∈ l, v = 0 ∨ v = 1 := by
    intro v hv
    obtain ⟨m0, _, rfl⟩ := List.mem_map.1 hv
    by_cases h0 : getCell m0 r c ≠ 0 <;> simp [h0]
  have hllen : l.length = (h :: t).length := by rw [hl, List.length_map]
  have hn1 : (1 : Int) ≤ ((h :: t).length : Int) := by
    have : 0 < (h :: t).length := by simp
    exact_mod_cast this
  by_cases hall : ∀ m ∈ (h :: t), getCell m r c ≠ 0
  · have hones : ∀ v ∈ l, v = 1 := by
      intro v hv
      obtain ⟨m0, hm0, rfl⟩ := List.mem_map.1 hv
      simp [hall m0 hm0]
    have : l.sum = (l.length : Int) := (sum_eq_length_iff_all_one l hl01).2 hones
    rw [if_pos hall, this, hllen, threshStep1, threshStep2]
    simp
  · have hne2 : l.sum ≠ ((h :: t).length : Int) := by
      intro heq
      have : ∀ v ∈ l, v = 1 :=
        (sum_eq_length_iff_all_one l hl01).1 (by rw [heq, hllen])
      refine hall (fun m0 hm0 hz => ?_)
      have h1 := this (if getCell m0 r c ≠ 0 then (1 : Int) else 0)
        (List.mem_map.2 ⟨m0, hm0, rfl⟩)
      rw [if_neg (by simpa using hz)] at h1
      exact absurd h1 (by norm_num)
    rw [if_neg hall, threshStep1, if_pos hne2, threshStep2,
      if_neg (by intro h0; omega)]

/-- Shape of the extracted mask: it matches the shape of the metric's
matrices. -/
theorem extract_shaped {R C : Nat} (d : Dict) (ind : Nat)
    (hne : metricAt d ind ≠ []) (hsh : ∀ m ∈ metricAt d ind, IsShaped R C m) :
    IsShaped R C (extracting_common_cnx d ind) := by
  obtain ⟨h, t, hmet⟩ : ∃ h t, metricAt d ind = h :: t := by
    cases hmeteq : metricAt d ind with
    | nil => exact absurd hmeteq hne
    | cons h t => exact ⟨h, t, rfl⟩
  have hunfold : extracting_common_cnx d ind =
      ((t.map binarizeMat).foldl matAdd (binarizeMat h)).map
        (fun row => row.map (fun v =>
          threshStep2 ((h :: t).length : Int) (threshStep1 ((h :: t).length : Int) v))) := by
    unfold extracting_common_cnx
    rw [hmet]
    simp only [List.map_cons]
  rw [hunfold]
  exact mapMat_shaped _ (extract_summed_shaped h t hmet hsh)

/-- Every entry of an extracted mask is 0 or 1 as soon as the metric has at
least one subject (no rectangularity needed: thresholding maps each cell). -/
theorem extract_entries_01 (d : Dict) (ind : Nat) (hne : metricAt d ind ≠ []) :
    ∀ v ∈ (extracting_common_cnx d ind).flatten, v = 0 ∨ v = 1 := by
  intro v hv
  have hn : ((metricAt d ind).length : Int) ≠ 0 := by
    have : 0 < (metricAt d ind).length := List.length_pos.2 hne
    omega
  unfold extracting_common_cnx at hv
  obtain ⟨row', hrow', hvrow⟩ := List.mem_flatten.1 hv
  obtain ⟨row, _, rfl⟩ := List.mem_map.1 hrow'
  obtain ⟨w, _, rfl⟩ := List.mem_map.1 hvrow
  by_cases hw : w = ((metricAt d ind).length : Int)
  · right; rw [threshStep1, if_neg (by simpa using hw), threshStep2, if_pos hw]
  · left; rw [threshStep1, if_pos hw, threshStep2, if_neg (fun h0 => hn h0.symm)]

/-- Bridge between `np.sum` of a 0/1 mask and its retained-cell count. -/
theorem sum_filter_ones :
    ∀ (l : List Int), (∀ v ∈ l, v = 0 ∨ v = 1) →
      l.sum = ((l.filter (fun v => v = 1)).length : Int)
  | [], _ => by simp
  | a :: t, h => by
    have ht := sum_filter_ones t (fun v hv => h v (by simp [hv]))
    rcases h a (by simp) with h0 | h1
    · subst h0
      rw [List.sum_cons, List.filter_cons]
      norm_num [ht]
    · subst h1
      rw [List.sum_cons, List.filter_cons]
      norm_num [ht]
      omega

theorem matSum_eq_countOnes {m : Mat} (h01 : ∀ v ∈ m.flatten, v = 0 ∨ v = 1) :
    matSum m = (countOnes m : Int) := by
  unfold matSum countOnes
  exact sum_filter_ones m.flatten h01

/-- Summed binarized cells reach the subject count exactly when every
subject is non-zero at the cell. -/
theorem binarized_sum_eq_iff (met : List Mat) (r c : Nat) :
    ((met.map (fun m => if getCell m r c ≠ 0 then (1 : Int) else 0)).sum =
      (met.length : Int)) ↔ ∀ m ∈ met, getCell m r c ≠ 0 := by
  set l := met.map (fun m => if getCell m r c ≠ 0 then (1 : Int) else 0) with hl
  have h01 : ∀ v ∈ l, v = 0 ∨ v = 1 := by
    intro v hv
    obtain ⟨m0, _, rfl⟩ := List.mem_map.1 hv
    by_cases h0 : getCell m0 r c ≠ 0 <;> simp [h0]
  have hlen : met.length = l.length := by rw [hl, List.length_map]
  rw [hlen, sum_eq_length_iff_all_one l h01]
  constructor
  · intro hall m hm hz
    have h1 := hall _ (List.mem_map.2 ⟨m, hm, rfl⟩)
    rw [if_neg (by simpa using hz)] at h1
    exact absurd h1 (by norm_num)
  · intro hall v hv
    obtain ⟨m0, hm0, rfl⟩ := List.mem_map.1 hv
    rw [if_pos (hall m0 hm0)]

/-! ### Claim C2 -/

/-- C2: for every non-empty list of same-shape subject matrices of the
reference metric, `extracting_common_cnx` yields a matrix whose cell is 1
exactly when that cell is non-zero in every subject's matrix and 0
otherwise; equivalently the cell is 1 exactly when the elementwise sum of
the binarized subject matrices reaches the subject count there. -/
theorem extracting_common_cnx_cell_spec {R C : Nat} (d : Dict) (ind : Nat)
    (hne : metricAt d ind ≠ []) (hsh : ∀ m ∈ metricAt d ind, IsShaped R C m) :
    ∀ r, r < R → ∀ c, c < C →
      getCell (extracting_common_cnx d ind) r c =
        (if ∀ m ∈ metricAt d ind, getCell m r c ≠ 0 then 1 else 0) ∧
      getCell (extracting_common_cnx d ind) r c =
        (if ((metricAt d ind).map
            (fun m => if getCell m r c ≠ 0 then (1 : Int) else 0)).sum =
            ((metricAt d ind).length : Int) then 1 else 0) := by
  intro r hr c hc
  have h1 := extract_cell_eq d ind hne hsh r c hr hc
  refine ⟨h1, ?_⟩
  rw [h1]
  exact if_congr (binarized_sum_eq_iff (metricAt d ind) r c).symm rfl rfl

/-- Witness for C2 at the concrete two-subject scenario. -/
theorem extracting_common_cnx_cell_spec_witness :
    metricAt exDict 0 ≠ [] ∧
      (∀ m ∈ metricAt exDict 0, IsShaped 2 2 m) ∧
      (getCell (extracting_common_cnx exDict 0) 1 0 =
        if ∀ m ∈ metricAt exDict 0, getCell m 1 0 ≠ 0 then 1 else 0) :=
  ⟨by decide, by decide,
    (extracting_common_cnx_cell_spec (R := 2) (C := 2) exDict 0 (by decide)
      (by decide) 1 (by decide) 0 (by decide)).1⟩

/-! ### Claim C8 -/

/-- C8: an all-zero matrix for one subject of the chosen reference metric
forces the common mask of that metric to be all-zero (and mask shape equals
matrix shape). -/
theorem extract_allzero_subject_mask_zero {R C : Nat} (d : Dict) (ind : Nat)
    (m0 : Mat) (hm0 : m0 ∈ metricAt d ind)
    (hsh : ∀ m ∈ metricAt d ind, IsShaped R C m)
    (hz : ∀ r, r < R → ∀ c, c < C → getCell m0 r c = 0) :
    IsShaped R C (extracting_common_cnx d ind) ∧
      ∀ r, r < R → ∀ c, c < C → getCell (extracting_common_cnx d ind) r c = 0 := by
  have hne : metricAt d ind ≠ [] := by
    intro h
    rw [h] at hm0
    cases hm0
  refine ⟨extract_shaped d ind hne hsh, fun r hr c hc => ?_⟩
  rw [extract_cell_eq d ind hne hsh r c hr hc, if_neg]
  intro hall
  exact hall m0 hm0 (hz r hr c hc)

/-- Witness for C8: second subject all-zero, mask all-zero. -/
theorem extract_allzero_subject_mask_zero_witness :
    [[0, 0], [0, 0]] ∈ metricAt exDictZeroSubject 0 ∧
      (∀ m ∈ metricAt exDictZeroSubject 0, IsShaped 2 2 m) ∧
      (∀ r, r < 2 → ∀ c, c < 2 →
        getCell (extracting_common_cnx exDictZeroSubject 0) r c = 0) :=
  ⟨by decide, by decide,
    (extract_allzero_subject_mask_zero exDictZeroSubject 0 [[0, 0], [0, 0]]
      (by decide) (by decide) (by decide)).2⟩

/-! ### Claim C10 -/

/-- C10: `extracting_common_cnx` leaves the input dictionary unchanged (it
works on `np.copy` of the metric's stacked matrices), and whenever the
subject list is non-empty every entry of the returned mask is 0 or 1. -/
theorem extract_frame_and_binary (d : Dict) (ind : Nat)
    (hne : metricAt d ind ≠ []) :
    (extracting_common_cnx_st d ind).2 = d ∧
      ∀ v ∈ (extracting_common_cnx_st d ind).1.flatten, v = 0 ∨ v = 1 :=
  ⟨rfl, extract_entries_01 d ind hne⟩

/-- Witness for C10 at the concrete two-subject scenario. -/
theorem extract_frame_and_binary_witness :
    metricAt exDict 0 ≠ [] ∧
      (extracting_common_cnx_st exDict 0).2 = exDict ∧
      ∀ v ∈ (extracting_common_cnx_st exDict 0).1.flatten, v = 0 ∨ v = 1 :=
  ⟨by decide, (extract_frame_and_binary exDict 0 (by decide)).1,
    (extract_frame_and_binary exDict 0 (by decide)).2⟩

/-! ### Claim C1 -/

/-- C1 counterexample: on the spec's concrete scenario the mask extracted
from "fa" is `[[1,0],[1,0]]`, not `[[1,0],[0,0]]`, and the pipeline raises
the inconsistent-mask error instead of proceeding without error. -/
theorem exDict_claimed_mask_false :
    extracting_common_cnx exDict 0 ≠ [[1, 0], [0, 0]] ∧
      commonStep exDict (2, 2) = .error .inconsistentMask := by
  constructor
  · decide
  · decide

/-- C1 amended: on the concrete scenario the "fa" mask is `[[1,0],[1,0]]`
(2 retained cells), the "md" mask is `[[1,0],[0,0]]` (1 retained cell), so
the retained-cell counts differ and the pipeline fails with the
inconsistent-mask error; no masking takes place. -/
theorem exDict_masks_and_error :
    extracting_common_cnx exDict 0 = [[1, 0], [1, 0]] ∧
      extracting_common_cnx exDict 1 = [[1, 0], [0, 0]] ∧
      countOnes (extracting_common_cnx exDict 0) = 2 ∧
      countOnes (extracting_common_cnx exDict 1) = 1 ∧
      commonStep exDict (2, 2) = .error .inconsistentMask := by
  refine ⟨by decide, by decide, by decide, by decide, by decide⟩

/-! ### Claim C3 -/

/-- C3: given masks of the first two metrics (both metrics non-empty and the
first mask passing the shape check), the pipeline fails with the
inconsistent-mask error exactly when the two masks' retained-cell counts
differ, and whenever the counts agree it proceeds and applies the first
mask — it never compares the masks themselves. -/
theorem commonStep_count_check (d : Dict) (msh : Nat × Nat)
    (h1 : metricAt d 0 ≠ []) (h2 : metricAt d 1 ≠ [])
    (hsh : shapeOf (extracting_common_cnx d 0) = msh) :
    (commonStep d msh = .error .inconsistentMask ↔
      countOnes (extracting_common_cnx d 0) ≠
        countOnes (extracting_common_cnx d 1)) ∧
    (countOnes (extracting_common_cnx d 0) =
        countOnes (extracting_common_cnx d 1) →
      commonStep d msh = .ok (apply_binary_mask d (extracting_common_cnx d 0))) := by
  have e1 : matSum (extracting_common_cnx d 0) =
      (countOnes (extracting_common_cnx d 0) : Int) :=
    matSum_eq_countOnes (extract_entries_01 d 0 h1)
  have e2 : matSum (extracting_common_cnx d 1) =
      (countOnes (extracting_common_cnx d 1) : Int) :=
    matSum_eq_countOnes (extract_entries_01 d 1 h2)
  have hstep : commonStep d msh =
      if matSum (extracting_common_cnx d 0) ≠ matSum (extracting_common_cnx d 1)
      then .error .inconsistentMask
      else .ok (apply_binary_mask d (extracting_common_cnx d 0)) := by
    unfold commonStep
    rw [if_neg (fun hc => hc hsh)]
  by_cases hcnt : countOnes (extracting_common_cnx d 0) =
      countOnes (extracting_common_cnx d 1)
  · have hsum : matSum (extracting_common_cnx d 0) =
        matSum (extracting_common_cnx d 1) := by rw [e1, e2, hcnt]
    rw [hstep, if_neg (fun hc => hc hsum)]
    exact ⟨⟨fun h => absurd h (by simp), fun h => absurd hcnt h⟩, fun _ => rfl⟩
  · have hsum : matSum (extracting_common_cnx d 0) ≠
        matSum (extracting_common_cnx d 1) := by
      rw [e1, e2]
      exact_mod_cast fun h => hcnt (by exact_mod_cast h)
    rw [hstep, if_pos hsum]
    exact ⟨⟨fun _ => hcnt, fun _ => rfl⟩, fun h => absurd h hcnt⟩

/-- Witness for C3: two structurally different masks with the same count let
the pipeline proceed (with the first mask applied). -/
theorem commonStep_count_check_witness :
    metricAt exDictEqCount 0 ≠ [] ∧
      shapeOf (extracting_common_cnx exDictEqCount 0) = (2, 2) ∧
      extracting_common_cnx exDictEqCount 0 ≠ extracting_common_cnx exDictEqCount 1 ∧
      countOnes (extracting_common_cnx exDictEqCount 0) =
        countOnes (extracting_common_cnx exDictEqCount 1) ∧
      commonStep exDictEqCount (2, 2) =
        .ok (apply_binary_mask exDictEqCount (extracting_common_cnx exDictEqCount 0)) :=
  ⟨by decide, by decide, by decide, by decide,
    (commonStep_count_check exDictEqCount (2, 2) (by decide) (by decide)
      (by decide)).2 (by decide)⟩

/-! ### Claim C6 -/

theorem restore_row_idempotent (g : Int → Int) (hg : ∀ v, g v = 0 ∨ g v = 1) :
    ∀ (n mask : List Int),
      List.zipWith (· * ·) (List.zipWith (· * ·) n (mask.map g)) (mask.map g) =
        List.zipWith (· * ·) n (mask.map g)
  | [], _ => by simp
  | _ :: _, [] => by simp
  | a :: n, b :: mask => by
    simp only [List.map_cons, List.zipWith_cons_cons]
    rw [restore_row_idempotent g hg n mask]
    rcases hg b with h0 | h1
    · rw [h0]; ring_nf
    · rw [h1]; ring_nf

theorem restore_restore (orig : Mat) :
    ∀ (new : Mat),
      restore_zero_values orig (restore_zero_values orig new) =
        restore_zero_values orig new := by
  unfold restore_zero_values matMulElem binarizeMat
  set g : Int → Int := fun v => if v ≠ 0 then 1 else 0 with hg
  have hg01 : ∀ v, g v = 0 ∨ g v = 1 := by
    intro v
    by_cases h0 : v ≠ 0 <;> simp [hg, h0]
  induction orig with
  | nil => intro new; simp
  | cons o os ih =>
    intro new
    cases new with
    | nil => simp
    | cons n ns =>
      simp only [List.map_cons, List.zipWith_cons_cons]
      rw [ih ns, restore_row_idempotent g hg01 n o]

/-- C6: `restore_zero_values` is idempotent in its second argument on
same-shape arrays. -/
theorem restore_zero_values_idempotent (orig new : Mat)
    (_hsh : orig.length = new.length ∧
      ∀ i, i < orig.length → (orig.getD i []).length = (new.getD i []).length) :
    restore_zero_values orig (restore_zero_values orig new) =
      restore_zero_values orig new :=
  restore_restore orig new

/-! ### Feature-table lemmas -/

theorem getD_range {N i : Nat} (d : Nat) (hi : i < N) :
    (List.range N).getD i d = i := by
  rw [List.getD_eq_getElem _ _ (by rw [List.length_range]; exact hi)]
  exact List.getElem_range i _

theorem transpose_flatten_length {R C : Nat} {m : Mat} (h : IsShaped R C m) :
    (transposeMat m).flatten.length = C * R := by
  rw [List.length_flatten]
  cases m with
  | nil =>
    have hR : R = 0 := by rw [← h.1]; rfl
    subst hR
    simp [transposeMat]
  | cons a t =>
    have hR : 0 < R := by rw [← h.1]; simp
    have ha : a.length = C := by
      have := h.2 0 hR
      rwa [List.getD_cons_zero] at this
    have hhead : ((a :: t : Mat).headD []).length = C := ha
    unfold transposeMat
    rw [hhead, List.map_map]
    have hconst : List.map (List.length ∘ fun c => (a :: t : Mat).map
        (fun row => row.getD c 0)) (List.range C) =
        List.map (fun _ => R) (List.range C) := by
      refine List.map_congr_left (fun x _ => ?_)
      simp only [Function.comp_apply, List.length_map]
      exact h.1
    rw [hconst, List.map_const', List.sum_replicate, List.length_range,
      smul_eq_mul]

theorem flattenMetric_length {S R C : Nat} {ms : List Mat} (hS : ms.length = S)
    (hsh : ∀ m ∈ ms, IsShaped R C m) : (flattenMetric ms).length = R * C * S := by
  unfold flattenMetric
  rw [List.length_flatten, List.map_map]
  have hconst : List.map (List.length ∘ fun m => (transposeMat m).flatten) ms =
      List.map (fun _ => C * R) ms := by
    refine List.map_congr_left (fun m hm => ?_)
    simp only [Function.comp_apply]
    exact transpose_flatten_length (hsh m hm)
  rw [hconst, List.map_const', List.sum_replicate, smul_eq_mul, hS]
  ring

theorem metricAt_eq_getD (d : Dict) (j : Nat) (hj : j < d.length) :
    metricAt d j = (d.getD j ("", [])).2 := by
  unfold metricAt
  exact getD_map_lt Prod.snd [] ("", []) d j hj

theorem creating_pca_input_getD (d : Dict) (j : Nat) (hj : j < d.length) :
    (creating_pca_input d).getD j [] = flattenMetric (metricAt d j) := by
  unfold creating_pca_input
  rw [getD_map_lt (fun p => flattenMetric p.2) [] ("", []) d j hj,
    metricAt_eq_getD d j hj]

theorem getD_mem_of_lt {α : Type} (l : List α) (j : Nat) (d : α)
    (hj : j < l.length) : l.getD j d ∈ l := by
  rw [List.getD_eq_getElem _ _ hj]
  exact List.getElem_mem hj

/-- Position `a * R + b` of a flattened transposed matrix holds cell `(b, a)`
of the original matrix. -/
theorem transpose_flatten_getD {R C : Nat} {m : Mat} (h : IsShaped R C m)
    (a b : Nat) (ha : a < C) (hb : b < R) :
    (transposeMat m).flatten.getD (a * R + b) 0 = getCell m b a := by
  have hR : 0 < R := Nat.lt_of_le_of_lt (Nat.zero_le b) hb
  have hhead : ((m.headD []).length) = C := by
    cases m with
    | nil => exact absurd h.1 (by simp; omega)
    | cons x t =>
      have := h.2 0 hR
      rwa [List.getD_cons_zero] at this
  have hrows : ∀ x ∈ transposeMat m, x.length = R := by
    intro x hx
    obtain ⟨c0, _, rfl⟩ := List.mem_map.1 hx
    rw [List.length_map]
    exact h.1
  have hlen : (transposeMat m).length = C := by
    unfold transposeMat
    rw [List.length_map, List.length_range, hhead]
  rw [flatten_getD 0 R (transposeMat m) a b hrows (by rw [hlen]; exact ha) hb]
  have hrow : (transposeMat m).getD a [] = m.map (fun row => row.getD a 0) := by
    unfold transposeMat
    rw [getD_map_lt _ [] 0 _ a (by rw [List.length_range, hhead]; exact ha),
      getD_range 0 (by rw [hhead]; exact ha)]
  rw [hrow, getD_map_lt _ 0 [] m b (by rw [h.1]; exact hb)]
  rfl

/-- Position `s * (C * R) + k` of a flattened metric column lies in subject
`s`'s block. -/
theorem flattenMetric_getD {R C : Nat} {ms : List Mat}
    (hsh : ∀ m ∈ ms, IsShaped R C m) (s k : Nat) (hs : s < ms.length)
    (hk : k < C * R) :
    (flattenMetric ms).getD (s * (C * R) + k) 0 =
      (transposeMat (ms.getD s [])).flatten.getD k 0 := by
  unfold flattenMetric
  rw [flatten_getD 0 (C * R) _ s k
    (by
      intro x hx
      obtain ⟨m0, hm0, rfl⟩ := List.mem_map.1 hx
      exact transpose_flatten_length (hsh m0 hm0))
    (by rw [List.length_map]; exact hs) hk]
  rw [getD_map_lt _ [] [] ms s hs]

/-! ### Claim C4 -/

/-- C4: the feature table has one column per metric, in metric insertion
order (column `j` is the flattening of metric `j`'s rolled subject stack),
and every column has exactly `R*C*S` entries. -/
theorem creating_pca_input_spec {S R C : Nat} (d : Dict)
    (hS : ∀ p ∈ d, (p.2 : List Mat).length = S)
    (hsh : ∀ p ∈ d, ∀ m ∈ p.2, IsShaped R C m) :
    (creating_pca_input d).length = d.length ∧
      ∀ j, j < d.length →
        (creating_pca_input d).getD j [] = flattenMetric (metricAt d j) ∧
        ((creating_pca_input d).getD j []).length = R * C * S := by
  refine ⟨by rw [creating_pca_input, List.length_map], fun j hj => ?_⟩
  have hp : d.getD j ("", []) ∈ d := getD_mem_of_lt d j ("", []) hj
  refine ⟨creating_pca_input_getD d j hj, ?_⟩
  rw [creating_pca_input_getD d j hj, metricAt_eq_getD d j hj]
  exact flattenMetric_length (hS _ hp) (fun m hm => hsh _ hp m hm)

/-- Witness for C4 at the concrete two-subject scenario. -/
theorem creating_pca_input_spec_witness :
    (∀ p ∈ exDict, (p.2 : List Mat).length = 2) ∧
      (∀ p ∈ exDict, ∀ m ∈ p.2, IsShaped 2 2 m) ∧
      (creating_pca_input exDict).length = exDict.length ∧
      ((creating_pca_input exDict).getD 0 []).length = 2 * 2 * 2 :=
  ⟨by decide, by decide,
    (creating_pca_input_spec (S := 2) (R := 2) (C := 2) exDict
      (by decide) (by decide)).1,
    ((creating_pca_input_spec (S := 2) (R := 2) (C := 2) exDict
      (by decide) (by decide)).2 0 (by decide)).2⟩

/-! ### Claim C5 -/

theorem restore_row_self :
    ∀ (row : List Int),
      List.zipWith (· * ·) row
        (row.map (fun v => if v ≠ 0 then (1 : Int) else 0)) = row
  | [] => by simp
  | a :: t => by
    simp only [List.map_cons, List.zipWith_cons_cons]
    rw [restore_row_self t]
    by_cases h0 : a = 0
    · subst h0; norm_num
    · rw [if_pos h0, mul_one]

/-- With the identity in place of the decomposition, restoring zeros is the
identity: `restore_zero_values(x, x) = x`. -/
theorem restore_self : ∀ (x : Mat), restore_zero_values x x = x := by
  intro x
  unfold restore_zero_values matMulElem binarizeMat
  induction x with
  | nil => simp
  | cons r t ih =>
    simp only [List.map_cons, List.zipWith_cons_cons]
    rw [ih, restore_row_self r]

/-- C5 counterexample: with one metric, one subject and the non-symmetric
matrix `[[1,2],[3,4]]`, the identity round trip yields `[[1,3],[2,4]]`; cell
(0,1) was the non-zero value 2 and comes back as 3, so the original matrices
are NOT reproduced up to zero cells. -/
theorem identRoundTrip_not_original :
    identRoundTrip exDictAsym 1 2 2 = [[[[1, 3], [2, 4]]]] ∧
      getCell (((identRoundTrip exDictAsym 1 2 2).getD 0 []).getD 0 []) 0 1 = 3 ∧
      getCell ((metricAt exDictAsym 0).getD 0 []) 0 1 = 2 := by
  refine ⟨by decide, by decide, by decide⟩

/-- C5 amended: the identity round trip reproduces the TRANSPOSE of each
original per-subject matrix: for square `n × n` matrices, cell `(r, c)` of
the reshaped output equals cell `(c, r)` of the original (identical matrices
whenever they are symmetric, and in particular equal up to zero cells only
in that case). -/
theorem identRoundTrip_transpose {S n : Nat} (d : Dict)
    (hS : ∀ p ∈ d, (p.2 : List Mat).length = S)
    (hsh : ∀ p ∈ d, ∀ m ∈ p.2, IsShaped n n m) :
    ∀ j, j < d.length → ∀ s, s < S → ∀ r, r < n → ∀ c, c < n →
      getCell (((identRoundTrip d S n n).getD j []).getD s []) r c =
        getCell ((metricAt d j).getD s []) c r := by
  intro j hj s hs r hr c hc
  have hp : d.getD j ("", []) ∈ d := getD_mem_of_lt d j ("", []) hj
  have hmet : metricAt d j = (d.getD j ("", [])).2 := metricAt_eq_getD d j hj
  have hmsh : ∀ m ∈ metricAt d j, IsShaped n n m := by
    rw [hmet]; exact hsh _ hp
  have hmS : (metricAt d j).length = S := by rw [hmet]; exact hS _ hp
  have hout : identRoundTrip d S n n =
      (List.range d.length).map (fun j0 =>
        (List.range S).map (fun s0 =>
          (List.range n).map (fun r0 =>
            (List.range n).map (fun c0 =>
              ((creating_pca_input d).getD j0 []).getD
                (s0 * (n * n) + r0 * n + c0) 0)))) := by
    unfold identRoundTrip
    rw [restore_self]
  rw [hout,
    getD_map_lt _ [] 0 _ j (by rw [List.length_range]; exact hj),
    getD_range 0 hj,
    getD_map_lt _ [] 0 _ s (by rw [List.length_range]; exact hs),
    getD_range 0 hs]
  unfold getCell
  rw [getD_map_lt _ [] 0 _ r (by rw [List.length_range]; exact hr),
    getD_range 0 hr,
    getD_map_lt _ 0 0 _ c (by rw [List.length_range]; exact hc),
    getD_range 0 hc,
    creating_pca_input_getD d j hj]
  have harith : s * (n * n) + r * n + c = s * (n * n) + (r * n + c) := by omega
  have hk : r * n + c < n * n := by
    have h1 : r * n + c < (r + 1) * n := by rw [Nat.succ_mul]; omega
    exact Nat.lt_of_lt_of_le h1 (Nat.mul_le_mul_right n hr)
  rw [harith,
    flattenMetric_getD hmsh s (r * n + c) (by rw [hmS]; exact hs) hk,
    transpose_flatten_getD (hmsh _ (getD_mem_of_lt _ s [] (by rw [hmS]; exact hs)))
      r c hr hc]
  rfl

/-- Witness for C5 (amended) at the concrete two-subject scenario. -/
theorem identRoundTrip_transpose_witness :
    (∀ p ∈ exDict, (p.2 : List Mat).length = 2) ∧
      (∀ p ∈ exDict, ∀ m ∈ p.2, IsShaped 2 2 m) ∧
      getCell (((identRoundTrip exDict 2 2 2).getD 0 []).getD 0 []) 0 1 =
        getCell ((metricAt exDict 0).getD 0 []) 1 0 :=
  ⟨by decide, by decide,
    identRoundTrip_transpose (S := 2) (n := 2) exDict (by decide) (by decide)
      0 (by decide) 0 (by decide) 0 (by decide) 1 (by decide)⟩

/-! ### Claim C7 -/

theorem written_iff_aux :
    ∀ (evs : List ℚ), evs.Sorted (· ≥ ·) → ∀ i, i < evs.length →
      (i < nbRetained evs ↔ 1 ≤ evs.getD i 0)
  | [], _, i, hi => absurd hi (by simp)
  | a :: t, hs, i, hi => by
    by_cases h1 : (1 : ℚ) ≤ a
    · have hcons : nbRetained (a :: t) = nbRetained t + 1 := by
        unfold nbRetained
        rw [List.filter_cons, if_pos (by simpa using h1)]
        rfl
      cases i with
      | zero =>
        rw [hcons, List.getD_cons_zero]
        exact ⟨fun _ => h1, fun _ => by omega⟩
      | succ i0 =>
        rw [hcons, List.getD_cons_succ]
        have := written_iff_aux t hs.of_cons i0 (by simpa using hi)
        constructor
        · intro h; exact this.1 (by omega)
        · intro h; have := this.2 h; omega
    · have hall : ∀ x ∈ t, ¬ (1 : ℚ) ≤ x := by
        intro x hx hle
        exact h1 (le_trans hle (List.rel_of_sorted_cons hs x hx))
      have hzero : nbRetained (a :: t) = 0 := by
        unfold nbRetained
        rw [List.filter_eq_nil_iff.2 (by
          intro x hx
          rcases hx with _ | hx
          · simpa using h1
          · simpa using hall x (by assumption))]
        rfl
      rw [hzero]
      cases i with
      | zero =>
        rw [List.getD_cons_zero]
        exact ⟨fun h => absurd h (by omega), fun h => absurd h h1⟩
      | succ i0 =>
        rw [List.getD_cons_succ]
        have hi0 : i0 < t.length := by simpa using hi
        have hmem : t.getD i0 0 ∈ t := getD_mem_of_lt t i0 0 hi0
        exact ⟨fun h => absurd h (by omega), fun h => absurd h (hall _ hmem)⟩

/-- C7 counterexample: for the unsorted eigenvalue list `[0, 2]` the saving
loop writes component 0 (eigenvalue 0 < 1) and skips component 1
(eigenvalue 2 ≥ 1): the written set is not the set of components with
eigenvalue ≥ 1. -/
theorem writtenPCs_unsorted_mismatch :
    writtenPCs [0, 2] = [0] ∧
      ¬ (1 : ℚ) ≤ ([0, 2] : List ℚ).getD 0 0 ∧
      (1 : ℚ) ≤ ([0, 2] : List ℚ).getD 1 0 ∧
      1 ∉ writtenPCs [0, 2] := by
  refine ⟨by decide, by decide, by decide, by decide⟩

/-- C7 amended: the saving loop writes the first `k` components where `k` is
the number of eigenvalues ≥ 1; when the eigenvalue sequence is sorted in
non-increasing order (as the decomposition service returns it), the set of
written components is exactly the set of components with eigenvalue ≥ 1. -/
theorem writtenPCs_sorted_spec (evs : List ℚ) (hs : evs.Sorted (· ≥ ·)) :
    ∀ i, i < evs.length → (i ∈ writtenPCs evs ↔ 1 ≤ evs.getD i 0) := by
  intro i hi
  rw [writtenPCs, List.mem_range]
  exact written_iff_aux evs hs i hi

/-- Witness for C7 (amended) at the sorted list `[2, 0]`. -/
theorem writtenPCs_sorted_spec_witness :
    ([2, 0] : List ℚ).Sorted (· ≥ ·) ∧ 0 < ([2, 0] : List ℚ).length ∧
      (0 ∈ writtenPCs [2, 0] ↔ (1 : ℚ) ≤ ([2, 0] : List ℚ).getD 0 0) :=
  ⟨by decide, by decide, writtenPCs_sorted_spec [2, 0] (by decide) 0 (by decide)⟩

/-! ### Claim C9 -/

theorem loadRow_cases (m : String) (store : String → String → Option Mat) :
    ∀ (subjects : List String),
      (loadRow subjects m store =
          .ok (subjects.map (fun a => (store a m).getD [])) ∧
        ∀ a ∈ subjects, store a m ≠ none) ∨
      (loadRow subjects m store = .error .missingMatrix ∧
        ∃ a ∈ subjects, store a m = none)
  | [] => Or.inl ⟨rfl, by simp⟩
  | a :: rest => by
    cases hsa : store a m with
    | none =>
      right
      exact ⟨by simp [loadRow, hsa], ⟨a, by simp, hsa⟩⟩
    | some v =>
      rcases loadRow_cases m store rest with ⟨hok, hall⟩ | ⟨herr, hex⟩
      · left
        constructor
        · simp [loadRow, hsa, hok, Except.map]
        · intro a0 ha0
          rcases ha0 with _ | ha0
          · simp [hsa]
          · exact hall a0 (by assumption)
      · right
        refine ⟨by simp [loadRow, hsa, herr, Except.map], ?_⟩
        obtain ⟨a0, ha0, hnone⟩ := hex
        exact ⟨a0, by simp [ha0], hnone⟩

theorem load_cases (subjects : List String) (store : String → String → Option Mat) :
    ∀ (metrics : List String),
      (load subjects metrics store =
          .ok (metrics.map (fun m =>
            (m, subjects.map (fun a => (store a m).getD [])))) ∧
        ∀ m ∈ metrics, ∀ a ∈ subjects, store a m ≠ none) ∨
      (load subjects metrics store = .error .missingMatrix ∧
        ∃ m ∈ metrics, ∃ a ∈ subjects, store a m = none)
  | [] => Or.inl ⟨rfl, by simp⟩
  | m :: rest => by
    rcases loadRow_cases m store subjects with ⟨hrok, hrall⟩ | ⟨hrerr, hrex⟩
    · rcases load_cases subjects store rest with ⟨hok, hall⟩ | ⟨herr, hex⟩
      · left
        constructor
        · simp [load, hrok, hok, Except.map]
        · intro m0 hm0
          rcases hm0 with _ | hm0
          · exact hrall
          · exact hall m0 (by assumption)
      · right
        refine ⟨by simp [load, hrok, herr, Except.map], ?_⟩
        obtain ⟨m0, hm0, hrest⟩ := hex
        exact ⟨m0, by simp [hm0], hrest⟩
    · right
      refine ⟨by simp [load, hrerr], ?_⟩
      obtain ⟨a0, ha0, hnone⟩ := hrex
      exact ⟨m, by simp, a0, ha0, hnone⟩

/-- C9 counterexample: loading from a store whose metrics have different
shapes succeeds and yields a dictionary with mismatched shapes — the
comprehension performs no shape validation, so a set with mismatched shapes
IS produced. -/
theorem load_no_shape_validation :
    load ["A"] ["fa", "md"] exStoreMismatch =
      .ok [("fa", [[[1]]]), ("md", [[[1, 2], [3, 4]]])] ∧
      shapeOf [[1]] ≠ shapeOf [[1, 2], [3, 4]] := by
  refine ⟨by decide, by decide⟩

/-- C9 amended: loading fails with the missing-matrix error exactly when
some (subject, metric) pair is absent from the store; when every pair is
present, it returns the raw stored matrices per metric with no shape check
of any kind. -/
theorem load_missing_iff_no_shape_check (subjects metrics : List String)
    (store : String → String → Option Mat) :
    (load subjects metrics store = .error .missingMatrix ↔
      ∃ m ∈ metrics, ∃ a ∈ subjects, store a m = none) ∧
    ((∀ m ∈ metrics, ∀ a ∈ subjects, store a m ≠ none) →
      load subjects metrics store =
        .ok (metrics.map (fun m =>
          (m, subjects.map (fun a => (store a m).getD []))))) := by
  rcases load_cases subjects store metrics with ⟨hok, hall⟩ | ⟨herr, hex⟩
  · refine ⟨⟨fun h => ?_, fun hex0 => ?_⟩, fun _ => hok⟩
    · rw [hok] at h; cases h
    · obtain ⟨m, hm, a, ha, hnone⟩ := hex0
      exact absurd hnone (hall m hm a ha)
  · refine ⟨⟨fun _ => hex, fun _ => herr⟩, fun hall => ?_⟩
    obtain ⟨m, hm, a, ha, hnone⟩ := hex
    exact absurd hnone (hall m hm a ha)

/-- Witness for C9 (amended) at a fully populated store. -/
theorem load_missing_iff_no_shape_check_witness :
    (∀ m ∈ ["fa"], ∀ a ∈ ["A"], exStoreFull a m ≠ none) ∧
      load ["A"] ["fa"] exStoreFull = .ok [("fa", [[[1, 0], [0, 1]]])] :=
  ⟨by decide,
    (load_missing_iff_no_shape_check ["A"] ["fa"] exStoreFull).2 (by decide)⟩

/-- Witness for C6 at a concrete same-shape pair. -/
theorem restore_zero_values_idempotent_witness :
    (([[1, 0], [0, 2]] : Mat).length = ([[5, 6], [7, 8]] : Mat).length ∧
      ∀ i, i < ([[1, 0], [0, 2]] : Mat).length →
        (([[1, 0], [0, 2]] : Mat).getD i []).length =
          (([[5, 6], [7, 8]] : Mat).getD i []).length) ∧
    restore_zero_values [[1, 0], [0, 2]]
        (restore_zero_values [[1, 0], [0, 2]] [[5, 6], [7, 8]]) =
      restore_zero_values [[1, 0], [0, 2]] [[5, 6], [7, 8]] :=
  ⟨by decide,
    restore_zero_values_idempotent [[1, 0], [0, 2]] [[5, 6], [7, 8]] (by decide)⟩

end PcaPipeline
